import Mathlib

/-!
Verification of the paginated tagged-image query engine of `src/app/data.ts`
(the sqlite `DBController`), shallowly embedded in Lean.

The database handle is modelled as an explicit state: the three tables
`images`, `tags` and `image_tags` become three lists of rows.  Each SQL
query issued by the controller is translated row-by-row into list
operations (`WHERE` becomes `List.filter`, the cross join of the
enrichment query becomes `flatMap`, `ORDER BY` becomes `insertionSort`
with the corresponding relation, SQLite's `x IN (...)` with an empty
list evaluates to false).  JavaScript's `Array.prototype.slice`, used by
`getPage`, is modelled with the exact ECMAScript index-resolution rules
(negative indices count from the end, indices are clamped to
`[0, length]`).
-/

/-- A row of the `images` table (`id, src, width, height`). -/
structure Image where
  id : Int
  src : String
  width : Int
  height : Int
deriving DecidableEq, Repr

/-- A row of the `tags` table (`id, name`). -/
structure Tag where
  id : Int
  name : String
deriving DecidableEq, Repr

/-- A row of the `image_tags` association table (`image_id, tag_id`). -/
structure ImageTagRow where
  imageId : Int
  tagId : Int
deriving DecidableEq, Repr

/-- The TS interface `TaggedImage extends Image { tags: Tag[] }`. -/
structure TaggedImage where
  id : Int
  src : String
  width : Int
  height : Int
  tags : List Tag
deriving DecidableEq, Repr

/-- Forgets the `tags` field of a `TaggedImage`. -/
def TaggedImage.toImage (ti : TaggedImage) : Image :=
  ⟨ti.id, ti.src, ti.width, ti.height⟩

/-- The spread `{...img, tags}` used to build a `TaggedImage` from an `Image`. -/
def Image.withTags (img : Image) (ts : List Tag) : TaggedImage :=
  ⟨img.id, img.src, img.width, img.height, ts⟩

/-- The sqlite database contents seen by one logical query. -/
structure DBState where
  images : List Image
  tags : List Tag
  imageTags : List ImageTagRow

/-- The TS `PaginatedResult<Image>` shape. -/
structure PaginatedImageResult where
  data : List Image
  total : Nat
  page : Int
  pageSize : Int
deriving DecidableEq, Repr

/-- The TS `PaginatedResult<TaggedImage>` shape. -/
structure PaginatedTaggedImagesResult where
  data : List TaggedImage
  total : Nat
  page : Int
  pageSize : Int
deriving DecidableEq, Repr

/-- ECMAScript index resolution for `Array.prototype.slice`: a negative
index counts from the end, and the result is clamped to `[0, len]`. -/
def jsResolveIndex (len x : Int) : Int :=
  if x < 0 then max (len + x) 0 else min x len

/-- `arr.slice(start, stop)` of ECMAScript, on lists. -/
def jsSlice {α : Type} (arr : List α) (start stop : Int) : List α :=
  let len : Int := arr.length
  let s := jsResolveIndex len start
  let e := jsResolveIndex len stop
  (arr.drop s.toNat).take (e - s).toNat

/-- `getPage` of `data.ts`: `arr.slice((pageNum-1)*pageSize, start+pageSize)`.
The source annotates it with `Image[]`, but TypeScript's structural typing
lets it run on `TaggedImage[]` too, so it is polymorphic here. -/
def getPage {α : Type} (arr : List α) (pageNum pageSize : Int) : List α :=
  let start := (pageNum - 1) * pageSize
  jsSlice arr start (start + pageSize)

/-- `ORDER BY id ASC` on image rows. -/
def imageIdLe (a b : Image) : Prop := a.id ≤ b.id

instance : DecidableRel imageIdLe := fun a b => Int.decLe a.id b.id

instance : IsTotal Image imageIdLe := ⟨fun a b => Int.le_total a.id b.id⟩

instance : IsTrans Image imageIdLe := ⟨fun _ _ _ h1 h2 => le_trans h1 h2⟩

/-- A row of the enrichment join `SELECT i.image_id, t.id, t.name`. -/
structure JoinRow where
  imageId : Int
  tagId : Int
  tagName : String
deriving DecidableEq, Repr

/-- `ORDER BY i.image_id ASC, t.name ASC` on join rows. -/
def joinRowLe (a b : JoinRow) : Prop :=
  a.imageId < b.imageId ∨ (a.imageId = b.imageId ∧ a.tagName ≤ b.tagName)

instance : DecidableRel joinRowLe := fun a b =>
  decidable_of_iff
    (a.imageId < b.imageId ∨ (a.imageId = b.imageId ∧ a.tagName ≤ b.tagName))
    Iff.rfl

instance : IsTotal JoinRow joinRowLe := by
  constructor
  intro a b
  rcases lt_trichotomy a.imageId b.imageId with h | h | h
  · exact Or.inl (Or.inl h)
  · rcases le_total a.tagName b.tagName with hn | hn
    · exact Or.inl (Or.inr ⟨h, hn⟩)
    · exact Or.inr (Or.inr ⟨h.symm, hn⟩)
  · exact Or.inr (Or.inl h)

instance : IsTrans JoinRow joinRowLe := by
  constructor
  intro a b c hab hbc
  rcases hab with hab | ⟨hab, han⟩
  · rcases hbc with hbc | ⟨hbc, _⟩
    · exact Or.inl (lt_trans hab hbc)
    · exact Or.inl (hbc ▸ hab)
  · rcases hbc with hbc | ⟨hbc, hbn⟩
    · exact Or.inl (hab ▸ hbc)
    · exact Or.inr ⟨hab.trans hbc, le_trans han hbn⟩

/-- The inner `GROUP BY image_id HAVING COUNT(tag_id) = N` condition of
`getPaginatedImagesWithTags` for one image id: the id appears in the
subquery result iff at least one association row survives the
`WHERE tag_id in (...)` filter (SQL groups only existing rows; with an
empty `tagIDs` list SQLite's `IN ()` is false and no group forms) and
the group's row count equals `tagIDs.length`. -/
def tagCountMatches (st : DBState) (tagIDs : List Int) (imgId : Int) : Bool :=
  let rows := st.imageTags.filter (fun r => decide (r.imageId = imgId ∧ r.tagId ∈ tagIDs))
  !rows.isEmpty && rows.length == tagIDs.length

/-- The full candidate list of `getPaginatedImagesWithTags` before
pagination: images whose id is in the `HAVING COUNT` subquery,
`ORDER BY id ASC`. -/
def imagesWithTagsMatches (st : DBState) (tagIDs : List Int) : List Image :=
  List.insertionSort imageIdLe
    (st.images.filter (fun img => tagCountMatches st tagIDs img.id))

/-- `getPaginatedImagesWithTags` of `data.ts`: candidate query, then
`total = matches.length` and `data = getPage(matches, page, pageSize)`. -/
def getPaginatedImagesWithTags (st : DBState) (tagIDs : List Int)
    (page pageSize : Int) : PaginatedImageResult :=
  let rows := imagesWithTagsMatches st tagIDs
  { data := getPage rows page pageSize
    total := rows.length
    page := page
    pageSize := pageSize }

/-- The anti-join of `getPaginatedUntaggedTaggedImages`:
`WHERE id NOT in (SELECT DISTINCT image_id FROM image_tags)`,
`ORDER BY id ASC`. -/
def untaggedImages (st : DBState) : List Image :=
  List.insertionSort imageIdLe
    (st.images.filter (fun img => decide (∀ r ∈ st.imageTags, r.imageId ≠ img.id)))

/-- `getPaginatedUntaggedTaggedImages` of `data.ts`: every untagged image
annotated with `tags: []`, then sliced with `getPage`. -/
def getPaginatedUntaggedTaggedImages (st : DBState) (page pageSize : Int) :
    PaginatedTaggedImagesResult :=
  let taggedMatches := (untaggedImages st).map (fun img => img.withTags [])
  { data := getPage taggedMatches page pageSize
    total := taggedMatches.length
    page := page
    pageSize := pageSize }

/-- The enrichment join of `getPaginatedTaggedImagesWithTags` before its
`ORDER BY`: `FROM image_tags as i, tags as t WHERE image_id in (...) and
i.tag_id = t.id` (a cross join filtered on the page's image ids and the
tag-id equality). -/
def enrichRowsUnsorted (st : DBState) (imageIDs : List Int) : List JoinRow :=
  (st.imageTags.filter (fun r => decide (r.imageId ∈ imageIDs))).flatMap
    (fun r => (st.tags.filter (fun t => decide (t.id = r.tagId))).map
      (fun t => ⟨r.imageId, t.id, t.name⟩))

/-- The enrichment join rows, `ORDER BY i.image_id ASC, t.name ASC`. -/
def enrichRows (st : DBState) (imageIDs : List Int) : List JoinRow :=
  List.insertionSort joinRowLe (enrichRowsUnsorted st imageIDs)

/-- The `img2Tags` Map of `getPaginatedTaggedImagesWithTags`, as a lookup
function.  The source folds the ordered join rows into a
`Map<number, Tag[]>` by appending each row's tag to its image's list;
looking up key `i` therefore yields exactly the rows with `image_id = i`
in row order, and a missing key yields `[]` (the `|| []` defaults in the
source). -/
def img2Tags (st : DBState) (imageIDs : List Int) (i : Int) : List Tag :=
  ((enrichRows st imageIDs).filter (fun r => decide (r.imageId = i))).map
    (fun r => { id := r.tagId, name := r.tagName })

/-- `getPaginatedTaggedImagesWithTags` of `data.ts`: empty `tagIDs` routes
to the untagged path; otherwise the paginated candidate result is fetched
and each page image is annotated with `img2Tags.get(img.id) || []`. -/
def getPaginatedTaggedImagesWithTags (st : DBState) (tagIDs : List Int)
    (page pageSize : Int) : PaginatedTaggedImagesResult :=
  if tagIDs.isEmpty then
    getPaginatedUntaggedTaggedImages st page pageSize
  else
    let pir := getPaginatedImagesWithTags st tagIDs page pageSize
    let imageIDs := pir.data.map Image.id
    { data := pir.data.map (fun img => img.withTags (img2Tags st imageIDs img.id))
      total := pir.total
      page := pir.page
      pageSize := pir.pageSize }

/-! ### Slice arithmetic -/

theorem jsSlice_of_nonneg {α : Type} (arr : List α) (s k : Int)
    (hs : 0 ≤ s) (hk : 0 ≤ k) :
    jsSlice arr s (s + k) = (arr.drop s.toNat).take k.toNat := by
  have h1 : ¬ (s < 0) := by omega
  have h2 : ¬ (s + k < 0) := by omega
  simp only [jsSlice, jsResolveIndex, if_neg h1, if_neg h2]
  rcases le_or_lt s (arr.length : Int) with h | h
  · rw [min_eq_left h, List.take_eq_take]
    simp only [List.length_drop]
    omega
  · have e1 : arr.drop (min s (arr.length : Int)).toNat = [] := by
      apply List.drop_eq_nil_of_le
      omega
    have e2 : arr.drop s.toNat = [] := by
      apply List.drop_eq_nil_of_le
      omega
    rw [e1, e2, List.take_nil, List.take_nil]

theorem length_jsSlice_le {α : Type} (arr : List α) (s k : Int) (hk : 0 ≤ k) :
    (jsSlice arr s (s + k)).length ≤ k.toNat := by
  simp only [jsSlice, jsResolveIndex]
  split_ifs <;> simp only [List.length_take, List.length_drop] <;> omega

theorem jsSlice_sublist {α : Type} (arr : List α) (s e : Int) :
    (jsSlice arr s e).Sublist arr := by
  simp only [jsSlice]
  exact (List.take_sublist _ _).trans (List.drop_sublist _ _)

theorem getPage_of_pos {α : Type} (arr : List α) (page pageSize : Int)
    (hp : 0 < page) (hs : 0 < pageSize) :
    getPage arr page pageSize =
      (arr.drop ((page - 1) * pageSize).toNat).take pageSize.toNat := by
  unfold getPage
  exact jsSlice_of_nonneg arr _ _ (mul_nonneg (by omega) (by omega)) (by omega)

theorem length_getPage_le {α : Type} (arr : List α) (page pageSize : Int)
    (hs : 0 < pageSize) :
    (getPage arr page pageSize).length ≤ pageSize.toNat :=
  length_jsSlice_le arr _ _ (by omega)

theorem getPage_zero {α : Type} (arr : List α) (pageSize : Int) (hs : 0 < pageSize) :
    getPage arr 0 pageSize = [] := by
  simp only [getPage, jsSlice, jsResolveIndex]
  have h1 : (0 - 1) * pageSize + pageSize = 0 := by ring
  rw [h1]
  have h2 : ¬ ((0 : Int) < 0) := by omega
  rw [if_neg h2]
  split_ifs with h
  · have h3 : ((0 : Int) ⊓ (arr.length : Int) -
        ((arr.length : Int) + (0 - 1) * pageSize) ⊔ 0).toNat = 0 := by omega
    rw [h3, List.take_zero]
  · exfalso
    omega

theorem getPage_beyond {α : Type} (arr : List α) (page pageSize : Int)
    (hp : 0 < page) (hs : 0 < pageSize)
    (hb : (arr.length : Int) ≤ (page - 1) * pageSize) :
    getPage arr page pageSize = [] := by
  rw [getPage_of_pos arr page pageSize hp hs]
  rw [List.drop_eq_nil_of_le (by omega), List.take_nil]

/-! ### The candidate query -/

theorem mem_imagesWithTagsMatches (st : DBState) (T : List Int) (img : Image) :
    img ∈ imagesWithTagsMatches st T ↔
      img ∈ st.images ∧ tagCountMatches st T img.id = true := by
  unfold imagesWithTagsMatches
  rw [(List.perm_insertionSort imageIdLe _).mem_iff, List.mem_filter]

theorem sorted_imagesWithTagsMatches (st : DBState) (T : List Int) :
    (imagesWithTagsMatches st T).Sorted imageIdLe :=
  List.sorted_insertionSort imageIdLe _

/-- The `HAVING COUNT(tag_id) = N` test is exactly "associated with every
tag of the list", provided the tag-id list has no duplicates and the
association table has no duplicate rows. -/
theorem tagCountMatches_iff (st : DBState) (T : List Int) (i : Int)
    (hne : T ≠ []) (hnd : T.Nodup) (hA : st.imageTags.Nodup) :
    tagCountMatches st T i = true ↔
      ∀ t ∈ T, (⟨i, t⟩ : ImageTagRow) ∈ st.imageTags := by
  have hFsub : ∀ r ∈ st.imageTags.filter
      (fun r => decide (r.imageId = i ∧ r.tagId ∈ T)),
      r.imageId = i ∧ r.tagId ∈ T ∧ r ∈ st.imageTags := by
    intro r hr
    rcases List.mem_filter.mp hr with ⟨hmem, hp⟩
    rcases of_decide_eq_true hp with ⟨h1, h2⟩
    exact ⟨h1, h2, hmem⟩
  have hFnd := hA.filter (fun r => decide (r.imageId = i ∧ r.tagId ∈ T))
  have hMnd : ((st.imageTags.filter
      (fun r => decide (r.imageId = i ∧ r.tagId ∈ T))).map ImageTagRow.tagId).Nodup := by
    apply hFnd.map_on
    intro x hx y hy hxy
    rcases hFsub x hx with ⟨hx1, -, -⟩
    rcases hFsub y hy with ⟨hy1, -, -⟩
    cases x
    cases y
    simp_all
  have hMsub : (st.imageTags.filter
      (fun r => decide (r.imageId = i ∧ r.tagId ∈ T))).map ImageTagRow.tagId ⊆ T := by
    intro t ht
    rcases List.mem_map.mp ht with ⟨r, hr, rfl⟩
    exact (hFsub r hr).2.1
  have hlen1 : (st.imageTags.filter
      (fun r => decide (r.imageId = i ∧ r.tagId ∈ T))).length ≤ T.length := by
    simpa using (List.subperm_of_subset hMnd hMsub).length_le
  simp only [tagCountMatches, Bool.and_eq_true, Bool.not_eq_true',
    List.isEmpty_eq_false_iff_exists_mem, beq_iff_eq]
  constructor
  · rintro ⟨-, hlen⟩ t ht
    have hperm : List.Perm ((st.imageTags.filter
        (fun r => decide (r.imageId = i ∧ r.tagId ∈ T))).map ImageTagRow.tagId) T :=
      (List.subperm_of_subset hMnd hMsub).perm_of_length_le (by simpa using hlen.ge)
    rcases List.mem_map.mp (hperm.mem_iff.mpr ht) with ⟨r, hrF, hrt⟩
    rcases hFsub r hrF with ⟨hri, -, hrmem⟩
    have : r = ⟨i, t⟩ := by
      cases r
      simp_all
    rwa [this] at hrmem
  · intro h
    have hGnd : (T.map (fun t => (⟨i, t⟩ : ImageTagRow))).Nodup := by
      apply hnd.map
      intro a b hab
      simpa using hab
    have hGsub : T.map (fun t => (⟨i, t⟩ : ImageTagRow)) ⊆
        st.imageTags.filter (fun r => decide (r.imageId = i ∧ r.tagId ∈ T)) := by
      intro r hr
      rcases List.mem_map.mp hr with ⟨t, ht, rfl⟩
      exact List.mem_filter.mpr ⟨h t ht, decide_eq_true ⟨rfl, ht⟩⟩
    have hlen2 : T.length ≤ (st.imageTags.filter
        (fun r => decide (r.imageId = i ∧ r.tagId ∈ T))).length := by
      simpa using (List.subperm_of_subset hGnd hGsub).length_le
    rcases List.exists_mem_of_ne_nil T hne with ⟨t, ht⟩
    exact ⟨⟨_, hGsub (List.mem_map_of_mem _ ht)⟩, by omega⟩

/-! ### Example database states used in witnesses and counterexamples -/

/-- The store of spec §8: images 1..4, image 1 tagged `t1,t2`, image 2
tagged `t1`, image 3 tagged `t2`, image 4 untagged. -/
def exSt : DBState :=
  { images := [⟨1, "a", 10, 10⟩, ⟨2, "b", 10, 10⟩, ⟨3, "c", 10, 10⟩, ⟨4, "d", 10, 10⟩]
    tags := [⟨1, "t1"⟩, ⟨2, "t2"⟩]
    imageTags := [⟨1, 1⟩, ⟨1, 2⟩, ⟨2, 1⟩, ⟨3, 2⟩] }

/-- C1: For every non-empty, duplicate-free list of positive tag ids `T`
(with a duplicate-free association table), the candidate list computed by
`getPaginatedImagesWithTags` before pagination contains exactly the
images associated with every tag in `T` — the intersection, with no
matching image excluded — in ascending order of image id. -/
theorem candidate_set_is_tag_intersection (st : DBState) (T : List Int)
    (hne : T ≠ []) (hnd : T.Nodup) (hpos : ∀ t ∈ T, 0 < t)
    (hA : st.imageTags.Nodup) :
    (∀ img : Image, img ∈ imagesWithTagsMatches st T ↔
        (img ∈ st.images ∧ ∀ t ∈ T, (⟨img.id, t⟩ : ImageTagRow) ∈ st.imageTags)) ∧
      (imagesWithTagsMatches st T).Sorted imageIdLe := by
  refine ⟨fun img => ?_, sorted_imagesWithTagsMatches st T⟩
  rw [mem_imagesWithTagsMatches, tagCountMatches_iff st T img.id hne hnd hA]

/-- Witness for C1 at the spec §8 store with `T = [1]`. -/
theorem candidate_set_is_tag_intersection_witness :
    ([1] : List Int) ≠ [] ∧ ([1] : List Int).Nodup ∧
      (∀ t ∈ ([1] : List Int), 0 < t) ∧ exSt.imageTags.Nodup ∧
      ((∀ img : Image, img ∈ imagesWithTagsMatches exSt [1] ↔
          (img ∈ exSt.images ∧ ∀ t ∈ ([1] : List Int),
            (⟨img.id, t⟩ : ImageTagRow) ∈ exSt.imageTags)) ∧
        (imagesWithTagsMatches exSt [1]).Sorted imageIdLe) :=
  ⟨by decide, by decide, by decide, by decide,
    candidate_set_is_tag_intersection exSt [1] (by decide) (by decide)
      (by decide) (by decide)⟩

/-- With a duplicate-free association table, the per-image group in the
`HAVING COUNT` subquery never exceeds the number of distinct listed tag
ids. -/
theorem length_tagFilter_le_dedup (st : DBState) (T : List Int) (i : Int)
    (hA : st.imageTags.Nodup) :
    (st.imageTags.filter
      (fun r => decide (r.imageId = i ∧ r.tagId ∈ T))).length ≤ T.dedup.length := by
  have hFsub : ∀ r ∈ st.imageTags.filter
      (fun r => decide (r.imageId = i ∧ r.tagId ∈ T)),
      r.imageId = i ∧ r.tagId ∈ T := by
    intro r hr
    exact of_decide_eq_true (List.mem_filter.mp hr).2
  have hMnd : ((st.imageTags.filter
      (fun r => decide (r.imageId = i ∧ r.tagId ∈ T))).map ImageTagRow.tagId).Nodup := by
    apply (hA.filter _).map_on
    intro x hx y hy hxy
    rcases hFsub x hx with ⟨hx1, -⟩
    rcases hFsub y hy with ⟨hy1, -⟩
    cases x
    cases y
    simp_all
  have hMsub : (st.imageTags.filter
      (fun r => decide (r.imageId = i ∧ r.tagId ∈ T))).map ImageTagRow.tagId ⊆ T.dedup := by
    intro t ht
    rcases List.mem_map.mp ht with ⟨r, hr, rfl⟩
    exact List.mem_dedup.mpr (hFsub r hr).2
  simpa using (List.subperm_of_subset hMnd hMsub).length_le

/-- C9: a `tagIDs` list with a duplicate makes the `HAVING COUNT = N`
test unsatisfiable (under unique association pairs), so the query
returns `total = 0` and `data = []` without error. -/
theorem duplicate_tag_ids_yield_empty (st : DBState) (T : List Int)
    (page pageSize : Int) (hdup : ¬ T.Nodup) (hA : st.imageTags.Nodup) :
    (getPaginatedImagesWithTags st T page pageSize).total = 0 ∧
      (getPaginatedImagesWithTags st T page pageSize).data = [] := by
  have hcount : ∀ i : Int, ¬ (tagCountMatches st T i = true) := by
    intro i hc
    have hd1 : T.dedup.length ≤ T.length := (List.dedup_sublist T).length_le
    have hd2 : T.dedup.length ≠ T.length := by
      intro h
      exact hdup (((List.dedup_sublist T).eq_of_length h) ▸ List.nodup_dedup T)
    have hle := length_tagFilter_le_dedup st T i hA
    simp only [tagCountMatches, Bool.and_eq_true, beq_iff_eq] at hc
    omega
  have hmatch : imagesWithTagsMatches st T = [] := by
    unfold imagesWithTagsMatches
    have hf : st.images.filter (fun img => tagCountMatches st T img.id) = [] :=
      List.filter_eq_nil_iff.mpr (fun img _ => by
        simpa using hcount img.id)
    rw [hf]
    rfl
  constructor
  · show (imagesWithTagsMatches st T).length = 0
    rw [hmatch]
    rfl
  · show getPage (imagesWithTagsMatches st T) page pageSize = []
    rw [hmatch]
    simp [getPage, jsSlice]

/-- Witness for C9: `T = [1, 1]` at the spec §8 store (image 1 carries
tag 1, yet the result is empty). -/
theorem duplicate_tag_ids_yield_empty_witness :
    (¬ ([1, 1] : List Int).Nodup) ∧ exSt.imageTags.Nodup ∧
      ((getPaginatedImagesWithTags exSt [1, 1] 1 25).total = 0 ∧
        (getPaginatedImagesWithTags exSt [1, 1] 1 25).data = []) :=
  ⟨by decide, by decide,
    duplicate_tag_ids_yield_empty exSt [1, 1] 1 25 (by decide) (by decide)⟩

/-- C3: for positive `page` and `pageSize` the slicer returns exactly the
window at offset `(page-1)*pageSize` of length at most `pageSize`, and
the query's `total` is the length of the full unsliced candidate list
(hence independent of `page` and `pageSize`). -/
theorem pagination_window_and_total (st : DBState) (T : List Int)
    (page pageSize : Int) (arr : List Image)
    (hp : 0 < page) (hs : 0 < pageSize) (hT : T ≠ []) :
    getPage arr page pageSize =
        (arr.drop ((page - 1) * pageSize).toNat).take pageSize.toNat ∧
      (getPage arr page pageSize).length ≤ pageSize.toNat ∧
      (getPaginatedImagesWithTags st T page pageSize).data =
        getPage (imagesWithTagsMatches st T) page pageSize ∧
      (getPaginatedImagesWithTags st T page pageSize).total =
        (imagesWithTagsMatches st T).length :=
  ⟨getPage_of_pos arr page pageSize hp hs,
    length_getPage_le arr page pageSize hs, rfl, rfl⟩

/-- Witness for C3 at the spec §8 store, `T = [1]`, `page = 2`,
`pageSize = 1`. -/
theorem pagination_window_and_total_witness :
    (0 : Int) < 2 ∧ (0 : Int) < 1 ∧ ([1] : List Int) ≠ [] ∧
      (getPage exSt.images 2 1 =
          (exSt.images.drop ((2 - 1) * 1 : Int).toNat).take (1 : Int).toNat ∧
        (getPage exSt.images 2 1).length ≤ (1 : Int).toNat ∧
        (getPaginatedImagesWithTags exSt [1] 2 1).data =
          getPage (imagesWithTagsMatches exSt [1]) 2 1 ∧
        (getPaginatedImagesWithTags exSt [1] 2 1).total =
          (imagesWithTagsMatches exSt [1]).length) :=
  ⟨by decide, by decide, by decide,
    pagination_window_and_total exSt [1] 2 1 exSt.images (by decide) (by decide)
      (by decide)⟩

/-- `T.isEmpty = false` for a non-empty list. -/
theorem isEmpty_false_of_ne_nil {T : List Int} (hT : T ≠ []) :
    T.isEmpty = false := by
  cases T with
  | nil => exact absurd rfl hT
  | cons a l => rfl

/-- C10: `page = 0` makes the slice window `(-pageSize, 0)` empty, so the
query returns normally with `data = []` and the full candidate count as
`total`; and for every integer `page`, `data` never exceeds `pageSize`
elements. -/
theorem page_zero_empty_and_data_bounded (st : DBState) (T : List Int)
    (pageSize : Int) (hs : 0 < pageSize) :
    ((getPaginatedTaggedImagesWithTags st T 0 pageSize).data = [] ∧
      (getPaginatedTaggedImagesWithTags st T 0 pageSize).total =
        (if T = [] then (untaggedImages st).length
         else (imagesWithTagsMatches st T).length)) ∧
      ∀ page : Int,
        (getPaginatedTaggedImagesWithTags st T page pageSize).data.length ≤
          pageSize.toNat := by
  by_cases hT : T = []
  · subst hT
    simp only [getPaginatedTaggedImagesWithTags, List.isEmpty_nil, if_pos rfl,
      getPaginatedUntaggedTaggedImages, if_true]
    refine ⟨⟨getPage_zero _ pageSize hs, List.length_map _ _⟩, fun page => ?_⟩
    exact length_getPage_le _ page pageSize hs
  · simp only [getPaginatedTaggedImagesWithTags, isEmpty_false_of_ne_nil hT,
      Bool.false_eq_true, if_false, if_neg hT, getPaginatedImagesWithTags]
    refine ⟨⟨?_, trivial⟩, fun page => ?_⟩
    · rw [getPage_zero _ pageSize hs]
      rfl
    · rw [List.length_map]
      exact length_getPage_le _ page pageSize hs

/-- Witness for C10 at the spec §8 store with `T = [1]`, `pageSize = 25`. -/
theorem page_zero_empty_and_data_bounded_witness :
    (0 : Int) < 25 ∧
      (((getPaginatedTaggedImagesWithTags exSt [1] 0 25).data = [] ∧
        (getPaginatedTaggedImagesWithTags exSt [1] 0 25).total =
          (if ([1] : List Int) = [] then (untaggedImages exSt).length
           else (imagesWithTagsMatches exSt [1]).length)) ∧
      ∀ page : Int,
        (getPaginatedTaggedImagesWithTags exSt [1] page 25).data.length ≤
          (25 : Int).toNat) :=
  ⟨by decide, page_zero_empty_and_data_bounded exSt [1] 25 (by decide)⟩

/-- C7: with a non-empty `tagIDs` having matches, a `page` past the last
page returns normally: `data = []` and `total` is the full, nonzero
match count. -/
theorem page_beyond_last_returns_empty (st : DBState) (T : List Int)
    (page pageSize : Int) (hT : T ≠ []) (hp : 0 < page) (hs : 0 < pageSize)
    (hne : imagesWithTagsMatches st T ≠ [])
    (hb : ((imagesWithTagsMatches st T).length : Int) ≤ (page - 1) * pageSize) :
    (getPaginatedTaggedImagesWithTags st T page pageSize).data = [] ∧
      (getPaginatedTaggedImagesWithTags st T page pageSize).total =
        (imagesWithTagsMatches st T).length ∧
      0 < (getPaginatedTaggedImagesWithTags st T page pageSize).total := by
  simp only [getPaginatedTaggedImagesWithTags, isEmpty_false_of_ne_nil hT,
    Bool.false_eq_true, if_false, getPaginatedImagesWithTags]
  refine ⟨?_, trivial, List.length_pos.mpr hne⟩
  rw [getPage_beyond _ page pageSize hp hs hb]
  rfl

/-- Witness for C7: spec §8 store, `T = [1]` (2 matches), `page = 5`,
`pageSize = 3`. -/
theorem page_beyond_last_returns_empty_witness :
    ([1] : List Int) ≠ [] ∧ (0 : Int) < 5 ∧ (0 : Int) < 3 ∧
      imagesWithTagsMatches exSt [1] ≠ [] ∧
      ((imagesWithTagsMatches exSt [1]).length : Int) ≤ (5 - 1) * 3 ∧
      ((getPaginatedTaggedImagesWithTags exSt [1] 5 3).data = [] ∧
        (getPaginatedTaggedImagesWithTags exSt [1] 5 3).total =
          (imagesWithTagsMatches exSt [1]).length ∧
        0 < (getPaginatedTaggedImagesWithTags exSt [1] 5 3).total) :=
  ⟨by decide, by decide, by decide, by decide, by decide,
    page_beyond_last_returns_empty exSt [1] 5 3 (by decide) (by decide)
      (by decide) (by decide) (by decide)⟩

/-- C2: with `tagIDs = []` the query routes to the anti-join path and
returns exactly the images with zero association rows, each annotated
with an empty tag list, in ascending id order, with `total` the count of
all such images (whatever the page). -/
theorem empty_tagIDs_returns_untagged (st : DBState) (page pageSize : Int) :
    (getPaginatedTaggedImagesWithTags st [] page pageSize).total =
        (st.images.filter
          (fun img => decide (∀ r ∈ st.imageTags, r.imageId ≠ img.id))).length ∧
      (getPaginatedTaggedImagesWithTags st [] page pageSize).data =
        getPage ((untaggedImages st).map (fun img => img.withTags [])) page pageSize ∧
      (∀ ti : TaggedImage,
        ti ∈ (untaggedImages st).map (fun img => img.withTags []) ↔
          (ti.tags = [] ∧ ti.toImage ∈ st.images ∧
            ∀ r ∈ st.imageTags, r.imageId ≠ ti.id)) ∧
      ((untaggedImages st).map (fun img => img.withTags [])).Sorted
        (fun a b => a.id ≤ b.id) ∧
      ∀ ti ∈ (getPaginatedTaggedImagesWithTags st [] page pageSize).data,
        ti.tags = [] := by
  have hperm := List.perm_insertionSort imageIdLe
    (st.images.filter (fun img => decide (∀ r ∈ st.imageTags, r.imageId ≠ img.id)))
  have hmem : ∀ img : Image, img ∈ untaggedImages st ↔
      (img ∈ st.images ∧ ∀ r ∈ st.imageTags, r.imageId ≠ img.id) := by
    intro img
    unfold untaggedImages
    rw [hperm.mem_iff, List.mem_filter, decide_eq_true_eq]
  have hiff : ∀ ti : TaggedImage,
      ti ∈ (untaggedImages st).map (fun img => img.withTags []) ↔
        (ti.tags = [] ∧ ti.toImage ∈ st.images ∧
          ∀ r ∈ st.imageTags, r.imageId ≠ ti.id) := by
    intro ti
    rw [List.mem_map]
    constructor
    · rintro ⟨img, himg, rfl⟩
      rcases (hmem img).mp himg with ⟨h1, h2⟩
      refine ⟨rfl, ?_, h2⟩
      cases img
      exact h1
    · rintro ⟨htags, himg, hpred⟩
      refine ⟨ti.toImage, (hmem ti.toImage).mpr ⟨himg, hpred⟩, ?_⟩
      cases ti
      simp only [TaggedImage.toImage, Image.withTags]
      simp_all
  refine ⟨?_, rfl, hiff, ?_, ?_⟩
  · show ((untaggedImages st).map (fun img => img.withTags [])).length = _
    rw [List.length_map]
    exact hperm.length_eq
  · rw [List.Sorted, List.pairwise_map]
    exact (List.sorted_insertionSort imageIdLe _).imp (fun h => h)
  · intro ti hti
    have : ti ∈ (untaggedImages st).map (fun img => img.withTags []) := by
      have hsub := (jsSlice_sublist
        ((untaggedImages st).map (fun img => img.withTags []))
        ((page - 1) * pageSize) ((page - 1) * pageSize + pageSize)).subset
      exact hsub hti
    exact ((hiff ti).mp this).1

/-! ### The enrichment join -/

/-- Membership in the per-image tag list built from the enrichment join:
for an image id in the queried page, the list holds exactly the tag rows
currently associated with that image. -/
theorem mem_img2Tags (st : DBState) (ids : List Int) (i : Int)
    (hi : i ∈ ids) (t : Tag) :
    t ∈ img2Tags st ids i ↔
      (t ∈ st.tags ∧ (⟨i, t.id⟩ : ImageTagRow) ∈ st.imageTags) := by
  unfold img2Tags enrichRows
  rw [List.mem_map]
  constructor
  · rintro ⟨r, hr, rfl⟩
    rcases List.mem_filter.mp hr with ⟨hr1, hr2⟩
    have hid : r.imageId = i := of_decide_eq_true hr2
    have hr1' : r ∈ enrichRowsUnsorted st ids :=
      (List.perm_insertionSort joinRowLe _).subset hr1
    unfold enrichRowsUnsorted at hr1'
    rcases List.mem_flatMap.mp hr1' with ⟨ar, har, hrow⟩
    rcases List.mem_map.mp hrow with ⟨tg, htg, heq⟩
    rcases List.mem_filter.mp htg with ⟨htg1, htg2⟩
    rcases List.mem_filter.mp har with ⟨har1, har2⟩
    have htgid : tg.id = ar.tagId := of_decide_eq_true htg2
    subst heq
    constructor
    · show (⟨tg.id, tg.name⟩ : Tag) ∈ st.tags
      cases tg
      exact htg1
    · show (⟨i, tg.id⟩ : ImageTagRow) ∈ st.imageTags
      have hid' : ar.imageId = i := hid
      rw [← hid', htgid]
      cases ar
      exact har1
  · rintro ⟨ht, hassoc⟩
    refine ⟨⟨i, t.id, t.name⟩, List.mem_filter.mpr ⟨?_, decide_eq_true rfl⟩, ?_⟩
    · rw [(List.perm_insertionSort joinRowLe _).mem_iff]
      unfold enrichRowsUnsorted
      apply List.mem_flatMap.mpr
      refine ⟨⟨i, t.id⟩, List.mem_filter.mpr ⟨hassoc, decide_eq_true hi⟩, ?_⟩
      apply List.mem_map.mpr
      exact ⟨t, List.mem_filter.mpr ⟨ht, decide_eq_true rfl⟩, rfl⟩
    · cases t
      rfl

/-- The per-image tag list inherits `ORDER BY name ASC` from the
enrichment join's lexicographic order. -/
theorem sorted_img2Tags (st : DBState) (ids : List Int) (i : Int) :
    (img2Tags st ids i).Sorted (fun t1 t2 : Tag => t1.name ≤ t2.name) := by
  unfold img2Tags
  rw [List.Sorted, List.pairwise_map]
  have hs : List.Pairwise joinRowLe
      ((enrichRows st ids).filter (fun r => decide (r.imageId = i))) :=
    List.Pairwise.sublist (List.filter_sublist _)
      (List.sorted_insertionSort joinRowLe _)
  apply List.Pairwise.imp_of_mem ?_ hs
  intro a b ha hb hab
  have hai : a.imageId = i := of_decide_eq_true (List.mem_filter.mp ha).2
  have hbi : b.imageId = i := of_decide_eq_true (List.mem_filter.mp hb).2
  rcases hab with h | ⟨-, h⟩
  · exact absurd h (by rw [hai, hbi]; exact lt_irrefl i)
  · exact h

/-- When the `tags` table has duplicate-free ids, at most one tag row
joins to a given association row. -/
theorem length_filter_tag_id_le_one (tags : List Tag)
    (h : (tags.map Tag.id).Nodup) (c : Int) :
    (tags.filter (fun t => decide (t.id = c))).length ≤ 1 := by
  induction tags with
  | nil => simp
  | cons t ts ih =>
    rw [List.map_cons, List.nodup_cons] at h
    rcases h with ⟨hm, hnd⟩
    rw [List.filter_cons]
    split_ifs with hc
    · have hc' : t.id = c := of_decide_eq_true hc
      have hnil : ts.filter (fun t => decide (t.id = c)) = [] := by
        apply List.filter_eq_nil_iff.mpr
        intro x hx hdec
        have hxc : x.id = c := of_decide_eq_true hdec
        exact hm (by rw [← hxc] at hc'; rw [hc']; exact List.mem_map_of_mem Tag.id hx)
      rw [hnil]
      simp
    · exact ih hnd

/-- Pairwise-distinct keys survive a `flatMap` whose blocks have at most
one element carrying the generating key. -/
theorem pairwise_key_ne_flatMap {α β : Type} (key : α → Int × Int)
    (bkey : β → Int × Int) (A : List α) (block : α → List β)
    (hA : A.Pairwise (fun a b => key a ≠ key b))
    (hlen : ∀ a ∈ A, (block a).length ≤ 1)
    (hk : ∀ a ∈ A, ∀ x ∈ block a, bkey x = key a) :
    (A.flatMap block).Pairwise (fun x y => bkey x ≠ bkey y) := by
  induction A with
  | nil => simp
  | cons a A ih =>
    rw [List.flatMap_cons, List.pairwise_append]
    rcases List.pairwise_cons.mp hA with ⟨hhead, htail⟩
    refine ⟨?_, ih htail (fun b hb => hlen b (List.mem_cons_of_mem a hb))
      (fun b hb => hk b (List.mem_cons_of_mem a hb)), ?_⟩
    · cases hbl : block a with
      | nil => exact List.Pairwise.nil
      | cons x xs =>
        cases xs with
        | nil => exact List.pairwise_singleton _ _
        | cons y ys =>
          have := hlen a (List.mem_cons_self a A)
          rw [hbl] at this
          simp at this
    · intro x hx y hy
      rcases List.mem_flatMap.mp hy with ⟨b, hb, hyb⟩
      rw [hk a (List.mem_cons_self a A) x hx,
        hk b (List.mem_cons_of_mem a hb) y hyb]
      exact hhead b hb

/-- Under unique association pairs and unique tag ids, the per-image tag
list contains no duplicate tags. -/
theorem nodup_img2Tags (st : DBState) (ids : List Int) (i : Int)
    (hA : st.imageTags.Nodup) (hTg : (st.tags.map Tag.id).Nodup) :
    (img2Tags st ids i).Nodup := by
  have hraw : (enrichRowsUnsorted st ids).Pairwise
      (fun x y : JoinRow => (x.imageId, x.tagId) ≠ (y.imageId, y.tagId)) := by
    unfold enrichRowsUnsorted
    apply pairwise_key_ne_flatMap (fun r : ImageTagRow => (r.imageId, r.tagId))
      (fun r : JoinRow => (r.imageId, r.tagId))
    · apply (hA.filter _).imp
      intro a b hne hkey
      apply hne
      cases a
      cases b
      simpa using hkey
    · intro a _
      rw [List.length_map]
      exact length_filter_tag_id_le_one st.tags hTg a.tagId
    · intro a _ x hx
      rcases List.mem_map.mp hx with ⟨tg, htg, rfl⟩
      have htgid : tg.id = a.tagId := of_decide_eq_true (List.mem_filter.mp htg).2
      simp [htgid]
  have hsorted : (enrichRows st ids).Pairwise
      (fun x y : JoinRow => (x.imageId, x.tagId) ≠ (y.imageId, y.tagId)) := by
    unfold enrichRows
    exact ((List.perm_insertionSort joinRowLe _).pairwise_iff
      (fun h => h.symm)).mpr hraw
  have hfil : List.Pairwise (fun x y : JoinRow => x.tagId ≠ y.tagId)
      ((enrichRows st ids).filter (fun r => decide (r.imageId = i))) := by
    apply List.Pairwise.imp_of_mem ?_
      (List.Pairwise.sublist (List.filter_sublist _) hsorted)
    intro a b ha hb hne htag
    have hai : a.imageId = i := of_decide_eq_true (List.mem_filter.mp ha).2
    have hbi : b.imageId = i := of_decide_eq_true (List.mem_filter.mp hb).2
    exact hne (by rw [hai, hbi, htag])
  exact List.Pairwise.map _
    (fun a b hab heq => hab (congrArg Tag.id heq)) hfil

/-- `(img.withTags ts).toImage` recovers the image record. -/
theorem toImage_withTags (img : Image) (ts : List Tag) :
    (img.withTags ts).toImage = img := by
  cases img
  rfl

/-- Every element of the untagged path's page has an empty tag list and
no association rows. -/
theorem mem_untagged_data (st : DBState) (page pageSize : Int)
    (ti : TaggedImage)
    (hti : ti ∈ (getPaginatedUntaggedTaggedImages st page pageSize).data) :
    ti.tags = [] ∧ ∀ r ∈ st.imageTags, r.imageId ≠ ti.id := by
  have hsub : ti ∈ (untaggedImages st).map (fun img => img.withTags []) :=
    (jsSlice_sublist _ _ _).subset hti
  rcases List.mem_map.mp hsub with ⟨img, himg, rfl⟩
  have himg' := (List.perm_insertionSort imageIdLe _).subset himg
  rcases List.mem_filter.mp himg' with ⟨-, hpred⟩
  exact ⟨rfl, of_decide_eq_true hpred⟩

/-- C4: for a non-empty `tagIDs`, the returned data is exactly the page's
images in page order, the enrichment join is scoped to the page's image
ids only, and each returned image carries its complete current tag
list. -/
theorem enrichment_covers_page_in_order (st : DBState) (T : List Int)
    (page pageSize : Int) (hT : T ≠ []) :
    (getPaginatedTaggedImagesWithTags st T page pageSize).data.map
        TaggedImage.toImage =
      (getPaginatedImagesWithTags st T page pageSize).data ∧
    (∀ r ∈ enrichRows st
        ((getPaginatedImagesWithTags st T page pageSize).data.map Image.id),
      r.imageId ∈
        (getPaginatedImagesWithTags st T page pageSize).data.map Image.id) ∧
    (∀ ti ∈ (getPaginatedTaggedImagesWithTags st T page pageSize).data,
      ∀ t : Tag, t ∈ ti.tags ↔
        (t ∈ st.tags ∧ (⟨ti.id, t.id⟩ : ImageTagRow) ∈ st.imageTags)) := by
  have hne := isEmpty_false_of_ne_nil hT
  simp only [getPaginatedTaggedImagesWithTags, hne, Bool.false_eq_true, if_false]
  refine ⟨?_, ?_, ?_⟩
  · rw [List.map_map]
    have hcomp : (TaggedImage.toImage ∘ fun img => img.withTags
        (img2Tags st
          ((getPaginatedImagesWithTags st T page pageSize).data.map Image.id)
          img.id)) = id :=
      funext (fun img => toImage_withTags img _)
    rw [hcomp, List.map_id]
  · intro r hr
    have hr' : r ∈ enrichRowsUnsorted st
        ((getPaginatedImagesWithTags st T page pageSize).data.map Image.id) :=
      (List.perm_insertionSort joinRowLe _).subset hr
    unfold enrichRowsUnsorted at hr'
    rcases List.mem_flatMap.mp hr' with ⟨ar, har, hrow⟩
    rcases List.mem_filter.mp har with ⟨-, harid⟩
    rcases List.mem_map.mp hrow with ⟨tg, -, rfl⟩
    exact of_decide_eq_true harid
  · intro ti hti t
    rcases List.mem_map.mp hti with ⟨img, himg, rfl⟩
    exact mem_img2Tags st _ img.id (List.mem_map_of_mem Image.id himg) t

/-- Witness for C4 at the spec §8 store with `T = [1]`. -/
theorem enrichment_covers_page_in_order_witness :
    ([1] : List Int) ≠ [] ∧
      ((getPaginatedTaggedImagesWithTags exSt [1] 1 25).data.map
          TaggedImage.toImage =
        (getPaginatedImagesWithTags exSt [1] 1 25).data ∧
      (∀ r ∈ enrichRows exSt
          ((getPaginatedImagesWithTags exSt [1] 1 25).data.map Image.id),
        r.imageId ∈
          (getPaginatedImagesWithTags exSt [1] 1 25).data.map Image.id) ∧
      (∀ ti ∈ (getPaginatedTaggedImagesWithTags exSt [1] 1 25).data,
        ∀ t : Tag, t ∈ ti.tags ↔
          (t ∈ exSt.tags ∧ (⟨ti.id, t.id⟩ : ImageTagRow) ∈ exSt.imageTags))) :=
  ⟨by decide, enrichment_covers_page_in_order exSt [1] 1 25 (by decide)⟩

/-- C5: on both query paths, every returned `TaggedImage` has its tag
list sorted by name ascending, duplicate-free, and equal (as a set) to
the tags currently associated with that image. -/
theorem tags_sorted_nodup_exact (st : DBState) (T : List Int)
    (page pageSize : Int) (hA : st.imageTags.Nodup)
    (hTg : (st.tags.map Tag.id).Nodup) :
    ∀ ti ∈ (getPaginatedTaggedImagesWithTags st T page pageSize).data,
      ti.tags.Sorted (fun t1 t2 : Tag => t1.name ≤ t2.name) ∧
      ti.tags.Nodup ∧
      ∀ t : Tag, t ∈ ti.tags ↔
        (t ∈ st.tags ∧ (⟨ti.id, t.id⟩ : ImageTagRow) ∈ st.imageTags) := by
  intro ti hti
  by_cases hT : T = []
  · subst hT
    have hdata : ti ∈ (getPaginatedUntaggedTaggedImages st page pageSize).data := by
      simpa [getPaginatedTaggedImagesWithTags] using hti
    rcases mem_untagged_data st page pageSize ti hdata with ⟨htags, hpred⟩
    rw [htags]
    refine ⟨List.sorted_nil, List.nodup_nil, fun t => ?_⟩
    simp only [List.not_mem_nil, false_iff, not_and]
    intro _ hassoc
    exact absurd rfl (hpred _ hassoc)
  · have hne := isEmpty_false_of_ne_nil hT
    simp only [getPaginatedTaggedImagesWithTags, hne, Bool.false_eq_true,
      if_false] at hti
    rcases List.mem_map.mp hti with ⟨img, himg, rfl⟩
    refine ⟨sorted_img2Tags st _ img.id, nodup_img2Tags st _ img.id hA hTg,
      fun t => ?_⟩
    exact mem_img2Tags st _ img.id (List.mem_map_of_mem Image.id himg) t

/-- Witness for C5 at the spec §8 store with `T = [1]`. -/
theorem tags_sorted_nodup_exact_witness :
    exSt.imageTags.Nodup ∧ (exSt.tags.map Tag.id).Nodup ∧
      ∀ ti ∈ (getPaginatedTaggedImagesWithTags exSt [1] 1 25).data,
        ti.tags.Sorted (fun t1 t2 : Tag => t1.name ≤ t2.name) ∧
        ti.tags.Nodup ∧
        ∀ t : Tag, t ∈ ti.tags ↔
          (t ∈ exSt.tags ∧ (⟨ti.id, t.id⟩ : ImageTagRow) ∈ exSt.imageTags) :=
  ⟨by decide, by decide,
    tags_sorted_nodup_exact exSt [1] 1 25 (by decide) (by decide)⟩

/-- C6 (code bug witness): `getPaginatedTaggedImagesWithTags` performs no
input validation.  With `page = 0`, with a non-positive tag id `-1`, or
with a negative `pageSize`, it returns a normal `PaginatedResult` —
there is no `InvalidInput` failure anywhere in its control flow. -/
theorem no_input_validation_returns_normally :
    getPaginatedTaggedImagesWithTags exSt [1] 0 25 =
        { data := [], total := 2, page := 0, pageSize := 25 } ∧
      getPaginatedTaggedImagesWithTags exSt [-1] 1 25 =
        { data := [], total := 0, page := 1, pageSize := 25 } ∧
      getPaginatedTaggedImagesWithTags exSt [1] 1 (-5) =
        { data := [], total := 2, page := 1, pageSize := -5 } :=
  ⟨rfl, rfl, rfl⟩

/-- A store whose single association row references tag id 5, which has
no row in the `tags` table: the enrichment join then omits image 1 even
though image 1 is on the page. -/
def danglingSt : DBState :=
  { images := [⟨1, "a", 10, 10⟩]
    tags := []
    imageTags := [⟨1, 5⟩] }

/-- C8 (code bug witness): the candidate page contains image 1, the
enrichment join returns no row for it, and the query nevertheless
returns image 1 with a silently empty `tags` list — no `Inconsistent`
error exists in the code. -/
theorem missing_enrichment_silently_empty :
    (getPaginatedImagesWithTags danglingSt [5] 1 25).data =
        [⟨1, "a", 10, 10⟩] ∧
      enrichRows danglingSt [1] = [] ∧
      getPaginatedTaggedImagesWithTags danglingSt [5] 1 25 =
        { data := [⟨1, "a", 10, 10, []⟩], total := 1, page := 1,
          pageSize := 25 } :=
  ⟨rfl, rfl, rfl⟩
